import Mathlib

/-!
Verification of the rs-rdc code generator: the `Name` case converter
(src/ir/data.rs), the IR dependency collector (src/ir/data.rs,
src/codegen.rs), and the externally-tagged JSON codec emitted for data
enums (src/targets/java/cg_data_enum.rs and cg_data_enum/external.rs).
Characters are modelled as natural code points, strings as `List Nat`
(mirroring Rust `str::chars`), Java exceptions as `Except` errors.
-/

namespace Rdc

/-- Rust `char::is_ascii_uppercase`. -/
def isAsciiUpper (c : Nat) : Bool := 65 ≤ c && c ≤ 90

/-- Rust `char::is_ascii_lowercase`. -/
def isAsciiLower (c : Nat) : Bool := 97 ≤ c && c ≤ 122

/-- Rust `char::is_ascii_digit`. -/
def isAsciiDigit (c : Nat) : Bool := 48 ≤ c && c ≤ 57

/-- Rust `char::to_ascii_lowercase`. -/
def toAsciiLower (c : Nat) : Nat := if isAsciiUpper c then c + 32 else c

/-- Rust `char::to_ascii_uppercase`. -/
def toAsciiUpper (c : Nat) : Nat := if isAsciiLower c then c - 32 else c

/-- Code point of the underscore character. -/
def underscore : Nat := 95

/-- `Name` from src/ir/data.rs: canonical identifier stored in snake case. -/
structure Name where
  snake_case : List Nat
deriving DecidableEq, Repr

/-- `Name::from_snake_case`: stores the string unchanged. -/
def Name.from_snake_case (s : List Nat) : Name := ⟨s⟩

/-- Body of the `for char in chars` loop of `Name::from_camel_case`:
every ASCII uppercase character becomes an underscore followed by its
lowercase form; every other character is kept as is. -/
def camelBody : List Nat → List Nat
  | [] => []
  | c :: rest =>
    if isAsciiUpper c then underscore :: toAsciiLower c :: camelBody rest
    else c :: camelBody rest

/-- `Name::from_camel_case`: the first character is lowercased without a
boundary, then the loop body runs on the remaining characters. -/
def Name.from_camel_case : List Nat → Name
  | [] => ⟨[]⟩
  | c :: rest => ⟨toAsciiLower c :: camelBody rest⟩

/-- `Name::from_pascal_case` delegates to `from_camel_case`. -/
def Name.from_pascal_case (s : List Nat) : Name := Name.from_camel_case s

/-- `Name::as_snake_case`: returns the stored string. -/
def Name.as_snake_case (n : Name) : List Nat := n.snake_case

/-- `Name::as_upper_snake_case`: ASCII-uppercases the stored string. -/
def Name.as_upper_snake_case (n : Name) : List Nat := n.snake_case.map toAsciiUpper

/-- The `while let` loop of `Name::as_camel_case`: an underscore consumes
the following character and emits its uppercase form (a trailing
underscore emits nothing); other characters pass through. -/
def camelJoin : List Nat → List Nat
  | [] => []
  | c :: rest =>
    if c = underscore then
      match rest with
      | [] => []
      | d :: rest2 => toAsciiUpper d :: camelJoin rest2
    else c :: camelJoin rest

/-- `Name::as_camel_case`. -/
def Name.as_camel_case (n : Name) : List Nat := camelJoin n.snake_case

/-- `Name::as_pascal_case`: camel case with the first character uppercased. -/
def Name.as_pascal_case (n : Name) : List Nat :=
  match n.as_camel_case with
  | [] => []
  | c :: rest => toAsciiUpper c :: rest

/-- Modelled from the spec: `from_upper_snake_case` is absent from the
source (only `from_snake_case`, `from_camel_case` and `from_pascal_case`
exist); the spec states that the canonical form can be derived from any
of the four styles and that upper snake is canonical snake uppercased,
so the inverse lowercases every character. -/
def Name.from_upper_snake_case (s : List Nat) : Name := ⟨s.map toAsciiLower⟩

/-- The camel-to-snake boundary rule exactly as claim C7 words it: a new
segment starts only immediately before an uppercase letter that follows
a lowercase letter. -/
def claimedCamelBody (prev : Nat) : List Nat → List Nat
  | [] => []
  | c :: rest =>
    (if isAsciiUpper c && isAsciiLower prev then underscore :: [toAsciiLower c]
     else [toAsciiLower c]) ++ claimedCamelBody c rest

/-- Camel-to-snake conversion under the boundary rule of claim C7. -/
def claimedFromCamel : List Nat → Name
  | [] => ⟨[]⟩
  | c :: rest => ⟨toAsciiLower c :: claimedCamelBody c rest⟩

/-- A character a snake-case string may contain. -/
def isSnakeChar (c : Nat) : Bool := isAsciiLower c || isAsciiDigit c || c = underscore

/-- A character a camel- or Pascal-case string may contain. -/
def isCamelChar (c : Nat) : Bool := isAsciiLower c || isAsciiUpper c || isAsciiDigit c

/-- A character an upper-snake-case string may contain. -/
def isUpperSnakeChar (c : Nat) : Bool := isAsciiUpper c || isAsciiDigit c || c = underscore

/-- Validity of a string in snake-case style. -/
def validSnakeStr (s : List Nat) : Bool := s.all isSnakeChar

/-- Validity of a string in camel-case style. -/
def validCamelStr (s : List Nat) : Bool :=
  s.all isCamelChar &&
    (match s with
     | [] => true
     | c :: _ => isAsciiLower c)

/-- Validity of a string in Pascal-case style. -/
def validPascalStr (s : List Nat) : Bool :=
  s.all isCamelChar &&
    (match s with
     | [] => true
     | c :: _ => isAsciiUpper c)

/-- Validity of a string in upper-snake-case style. -/
def validUpperSnakeStr (s : List Nat) : Bool := s.all isUpperSnakeChar

/-- JSON trees as seen by the generated Jackson codec: strings and
objects are the token kinds the deserializer branches on, arrays are
what `parseField` inspects, `null` is an absent payload, and every other
scalar (number, boolean) is carried as its literal text. -/
inductive Json where
  | null
  | str (s : String)
  | arr (elems : List Json)
  | obj (fields : List (String × Json))
  | lit (text : String)

/-- `JsonNode::isArray`. -/
def Json.isArr : Json → Bool
  | .arr _ => true
  | _ => false

/-- `ObjectNode::get`: first binding of the key, if present. -/
def jlookup : List (String × Json) → String → Option Json
  | [], _ => none
  | (k, v) :: rest, key => if k = key then some v else jlookup rest key

/-- `ObjectNode::has`. -/
def hasKey (node : List (String × Json)) (key : String) : Bool :=
  node.any (fun p => p.1 = key)

/-- A data enum variant as carried by the IR (src/ir/data.rs
`DataEnumVariant`), reduced to what the codec templates read:
the wire tag, and for Object variants the field wire tags, for Tuple
variants the slot type names. -/
inductive DEVariant where
  | unitV (json_name : String)
  | objectV (json_name : String) (fields : List String)
  | tupleV (json_name : String) (fields : List String)
deriving DecidableEq, Repr

/-- `DataEnumVariant::json_name`. -/
def DEVariant.jsonName : DEVariant → String
  | .unitV jn => jn
  | .objectV jn _ => jn
  | .tupleV jn _ => jn

/-- Whether a variant is a Unit variant. -/
def DEVariant.isUnitShape : DEVariant → Bool
  | .unitV _ => true
  | _ => false

/-- A data enum as read by the codec generator: its Pascal-case class
name and its declared variant list. -/
structure DataEnum where
  name : String
  variants : List DEVariant
deriving DecidableEq, Repr

/-- A runtime instance of the generated wrapper class: the discriminant
is the variant's declaration index; the payload slot is absent for Unit,
the nested holder's field values for Object, the positional array for
Tuple. Payload values are opaque JSON trees. -/
inductive DEValue where
  | unitVal (vi : Nat)
  | objectVal (vi : Nat) (fields : List Json)
  | tupleVal (vi : Nat) (slots : List Json)

/-- The discriminant stored in the instance. -/
def DEValue.variantIndex : DEValue → Nat
  | .unitVal vi => vi
  | .objectVal vi _ => vi
  | .tupleVal vi _ => vi

/-- A value is consistent with its enum: the discriminant names a
declared variant of the matching shape and the payload arity matches the
declaration (this is what every variant factory `ofX` guarantees). -/
def wfValue (de : DataEnum) : DEValue → Prop
  | .unitVal vi => ∃ jn, de.variants.get? vi = some (.unitV jn)
  | .objectVal vi fvals =>
      ∃ jn fnames, de.variants.get? vi = some (.objectV jn fnames) ∧
        fvals.length = fnames.length
  | .tupleVal vi slots =>
      ∃ jn tys, de.variants.get? vi = some (.tupleV jn tys) ∧
        slots.length = tys.length

/-- Jackson's default serialization of the nested holder class emitted
for an Object variant: one key per field, in declared order, keyed by
the `@JsonProperty` wire tag of its getter. -/
def serializeHolder (fnames : List String) (fvals : List Json) : Json :=
  .obj (fnames.zip fvals)

/-- `generate_external_serializer`(src/targets/java/cg_data_enum/external.rs):
switch on the discriminant; Unit writes the bare tag string; Object
writes a single-key object holding the serialized holder; Tuple writes a
single-key object holding slot 0 when the declared arity is 1, and the
positional array otherwise. Returns `none` when the stored payload does
not match the declared shape (impossible for factory-built values). -/
def serialize (de : DataEnum) : DEValue → Option Json
  | .unitVal vi =>
    (de.variants.get? vi).bind fun v =>
      match v with
      | .unitV jn => some (.str jn)
      | _ => none
  | .objectVal vi fvals =>
    (de.variants.get? vi).bind fun v =>
      match v with
      | .objectV jn fnames => some (.obj [(jn, serializeHolder fnames fvals)])
      | _ => none
  | .tupleVal vi slots =>
    (de.variants.get? vi).bind fun v =>
      match v with
      | .tupleV jn tys =>
        if tys.length = 1 then (slots.get? 0).map fun x => .obj [(jn, x)]
        else some (.obj [(jn, .arr slots)])
      | _ => none

/-- Java exceptions thrown by the generated codec and accessors:
`JsonParseException` (from `parseField`), the
`ctxt.instantiationException` raised when nothing matches, and
`IllegalStateException` (wrong-variant accessor). -/
inductive JavaErr where
  | parse (msg : String)
  | instantiation (msg : String)
  | invalidState (msg : String)
deriving DecidableEq, Repr

/-- `parseField` of the generated `Deserializer`: absent key gives an
all-null array; an array value must have exactly `n` elements; a
non-array value is accepted only when `n = 1`. Element conversion by
`readValueAs` is the identity on opaque JSON payloads. -/
def parseField (node : List (String × Json)) (key : String) (n : Nat) :
    Except String (List Json) :=
  match jlookup node key with
  | none => .ok (List.replicate n Json.null)
  | some f =>
    if f.isArr then
      match f with
      | .arr elems =>
        if elems.length ≠ n then
          .error ("Expected array of size " ++ toString n ++ " for field " ++ key)
        else .ok elems
      | _ => .ok []
    else
      if n ≠ 1 then .error ("Expected array for field " ++ key)
      else .ok [f]

/-- Jackson's `readValueAs` at the holder class generated for an Object
variant: binds a JSON object to the holder, each field read from the key
equal to its wire tag (absent keys become null). Any non-object input
fails with a parse error. -/
def readHolder (fnames : List String) : Json → Except String (List Json)
  | .obj fields => .ok (fnames.map fun fn => (jlookup fields fn).getD Json.null)
  | _ => .error "Cannot construct holder instance"

/-- The `if (p.getText().equals(...)) return ...` chain emitted by
`deserialize_unit_variant`, one test per Unit variant in declaration
order; `i` is the declaration index of the first variant in `variants`. -/
def unitLookup (variants : List DEVariant) (s : String) (i : Nat) : Option Nat :=
  match variants with
  | [] => none
  | v :: rest =>
    match v with
    | .unitV jn => if jn = s then some i else unitLookup rest s (i + 1)
    | _ => unitLookup rest s (i + 1)

/-- The `if (node.has(...)) return ...` chain emitted by
`deserialize_object_variant` and `deserialize_tuple_variant`, one test
per non-Unit variant in declaration order. -/
def objLookup (variants : List DEVariant) (node : List (String × Json)) (i : Nat) :
    Option (Nat × DEVariant) :=
  match variants with
  | [] => none
  | v :: rest =>
    match v with
    | .unitV _ => objLookup rest node (i + 1)
    | _ => if hasKey node v.jsonName then some (i, v) else objLookup rest node (i + 1)

/-- The body of the matched non-Unit case: Object variants run
`parseField` with the single holder type and store element 0 read as the
holder; Tuple variants run `parseField` with one type per declared slot
and store the resulting array. -/
def applyNonUnitCase (node : List (String × Json)) (i : Nat) :
    DEVariant → Except JavaErr DEValue
  | .unitV _ => .error (.parse "unreachable")
  | .objectV jn fnames =>
    match parseField node jn 1 with
    | .error m => .error (.parse m)
    | .ok vals =>
      match readHolder fnames (vals.getD 0 Json.null) with
      | .error m => .error (.parse m)
      | .ok fvals => .ok (.objectVal i fvals)
  | .tupleV jn tys =>
    match parseField node jn tys.length with
    | .error m => .error (.parse m)
    | .ok vals => .ok (.tupleVal i vals)

/-- `generate_external_deserializer`: a string token is matched against
the Unit variants' tags; an object token against the non-Unit variants'
tags, first declared match wins; anything else, or no match, throws
`ctxt.instantiationException` naming the target class. -/
def deserialize (de : DataEnum) : Json → Except JavaErr DEValue
  | .str s =>
    match unitLookup de.variants s 0 with
    | some i => .ok (.unitVal i)
    | none => .error (.instantiation ("Cannot deserialize " ++ de.name))
  | .obj node =>
    match objLookup de.variants node 0 with
    | some (i, v) => applyNonUnitCase node i v
    | none => .error (.instantiation ("Cannot deserialize " ++ de.name))
  | _ => .error (.instantiation ("Cannot deserialize " ++ de.name))

/-- The generated getter for an Object variant (`generate_field_code`):
it first asserts the discriminant and throws `IllegalStateException`
otherwise, then downcasts the stored payload to the holder class. -/
def getObjectPayload (expected : Nat) (v : DEValue) : Except JavaErr (List Json) :=
  if v.variantIndex ≠ expected then
    .error (.invalidState ("Invalid variant: " ++ toString v.variantIndex))
  else
    match v with
    | .objectVal _ fvals => .ok fvals
    | _ => .error (.invalidState "ClassCastException")

/-- The generated slot getter for a Tuple variant (`generate_field_code`):
asserts the discriminant, throws `IllegalStateException` otherwise, then
indexes the stored positional array. -/
def getTupleSlot (expected k : Nat) (v : DEValue) : Except JavaErr Json :=
  if v.variantIndex ≠ expected then
    .error (.invalidState ("Invalid variant: " ++ toString v.variantIndex))
  else
    match v with
    | .tupleVal _ slots => .ok (slots.getD k Json.null)
    | _ => .error (.invalidState "ClassCastException")

/-- Wire tags of the Unit variants of a variant list, in declaration order. -/
def unitTagsL (l : List DEVariant) : List String :=
  l.filterMap fun v =>
    match v with
    | .unitV jn => some jn
    | _ => none

/-- Wire tags of the non-Unit variants of a variant list, in declaration order. -/
def nonUnitTagsL (l : List DEVariant) : List String :=
  l.filterMap fun v =>
    match v with
    | .unitV _ => none
    | _ => some v.jsonName

/-- Wire tags of the Unit variants, in declaration order. -/
def unitTags (de : DataEnum) : List String := unitTagsL de.variants

/-- Wire tags of the non-Unit variants, in declaration order. -/
def nonUnitTags (de : DataEnum) : List String := nonUnitTagsL de.variants

/-- Field wire tags of an Object variant are pairwise distinct. -/
def fieldsNodup : DEVariant → Prop
  | .objectV _ fnames => fnames.Nodup
  | _ => True

/-- Well-formed data enum declaration: Unit tags pairwise distinct,
non-Unit tags pairwise distinct, and each Object variant's field tags
pairwise distinct. Rust variant names guarantee this unless serde
renames collide. -/
def wfEnum (de : DataEnum) : Prop :=
  (unitTags de).Nodup ∧ (nonUnitTags de).Nodup ∧ ∀ v ∈ de.variants, fieldsNodup v

/-- The payload of an arity-1 Tuple variant is not itself a JSON array
(the encoding cannot distinguish such a payload from the positional
array of a wider tuple). -/
def unaryTupleArrayFree : DEValue → Prop
  | .tupleVal _ slots => slots.length = 1 → ∀ x ∈ slots, x.isArr = false
  | _ => True

/-- The type expressions the collector can encounter: the primitives of
`rdc_type!` (src/codegen.rs), the four container shapes with their own
`GenerateIR` impls, and user-defined `#[derive(RDC)]` types referenced
by an index into the program's definition table. Each `Ty` stands for
one Rust `TypeId`. -/
inductive Ty where
  | boolT
  | i8T
  | i16T
  | i32T
  | i64T
  | f32T
  | f64T
  | strT
  | vecT (t : Ty)
  | optT (t : Ty)
  | mapT (k v : Ty)
  | boxT (t : Ty)
  | userT (i : Nat)
deriving DecidableEq, Repr

/-- Which of the three IR collections a user type's entity goes to. -/
inductive EntityKind where
  | structE
  | enumE
  | dataEnumE
deriving DecidableEq, Repr

/-- A user-defined type: the kind of IR entity it registers and the
types of its fields / variant payloads, as written in the source. -/
structure UserDef where
  kind : EntityKind
  deps : List Ty
deriving DecidableEq, Repr

/-- Definition table of a program; `userT i` refers to entry `i`. -/
abbrev Env := List UserDef

/-- Definition looked up for `userT i` (out-of-range indices behave as
an empty struct, which never occurs for programs from the derive). -/
def envDef (env : Env) (i : Nat) : UserDef := env.getD i ⟨.structE, []⟩

/-- `IntermediateRepresentation` (src/ir/data.rs): the three entity
collections (storing the defining user index, in push order) and the
`type_ids` dedup set, modelled as the list of inserted `Ty` keys. -/
structure IR where
  structs : List Nat
  enums : List Nat
  data_enums : List Nat
  type_ids : List Ty
deriving DecidableEq, Repr

/-- The IR created by `IntermediateRepresentation::new`. -/
def IR.empty : IR := ⟨[], [], [], []⟩

/-- `IntermediateRepresentation::has_type_id`. -/
def hasTypeId (ir : IR) (t : Ty) : Bool := t ∈ ir.type_ids

/-- `IntermediateRepresentation::add_type_id` (`HashSet::insert`). -/
def addTypeId (ir : IR) (t : Ty) : IR :=
  if t ∈ ir.type_ids then ir else { ir with type_ids := t :: ir.type_ids }

/-- `add_struct` / `add_enum` / `add_data_enum`: pushes entity `i` onto
the collection matching its declared kind. -/
def pushEntity (env : Env) (i : Nat) (ir : IR) : IR :=
  match (envDef env i).kind with
  | .structE => { ir with structs := ir.structs ++ [i] }
  | .enumE => { ir with enums := ir.enums ++ [i] }
  | .dataEnumE => { ir with data_enums := ir.data_enums ++ [i] }

mutual

/-- `IntermediateRepresentation::add::<T>` (src/ir/data.rs lines
152-157), fuel-indexed: if the `TypeId` is already present do nothing;
otherwise insert it first and only then run `T::add_to_ir`. `none`
means the fuel ran out before the call returned. -/
def addF (env : Env) : Nat → Ty → IR → Option IR
  | 0, _, _ => none
  | fuel + 1, t, ir =>
    if hasTypeId ir t then some ir
    else addToIrF env fuel t (addTypeId ir t)

/-- `T::add_to_ir`: for the primitives the empty default body of
`GenerateIR` (src/codegen.rs); for `Vec`, `Option`, `Box` the impl
forwards directly to the element's `add_to_ir` and for `HashMap` to the
key's then the value's (src/codegen.rs lines 27-72, note: not through
`add`, bypassing the `type_ids` check); for a derived user type the body
is modelled from the spec (see `addDepsF`) and ends by pushing the
type's own entity. -/
def addToIrF (env : Env) : Nat → Ty → IR → Option IR
  | 0, _, _ => none
  | fuel + 1, t, ir =>
    match t with
    | .boolT | .i8T | .i16T | .i32T | .i64T | .f32T | .f64T | .strT => some ir
    | .vecT e => addToIrF env fuel e ir
    | .optT e => addToIrF env fuel e ir
    | .boxT e => addToIrF env fuel e ir
    | .mapT k v => (addToIrF env fuel k ir).bind (addToIrF env fuel v)
    | .userT i => (addDepsF env fuel (envDef env i).deps ir).map (pushEntity env i)

/-- Modelled from the spec: the body the `#[derive(RDC)]` macro (crate
`rdc_macros`, not part of the sources) generates for a user type
registers each field / variant payload type through the guarded
`ir.add::<D>()` entry point, in declaration order ("the Collector walks
each root, recursively resolving field/variant types, registering every
newly-seen type into the IR and skipping already-registered ones"). -/
def addDepsF (env : Env) : Nat → List Ty → IR → Option IR
  | 0, _, _ => none
  | _ + 1, [], ir => some ir
  | fuel + 1, d :: ds, ir => (addF env fuel d ir).bind (addDepsF env fuel ds)

end

/-- The scenario data enum of spec section 8: `Csv(String)`, `Json(Int)`
renamed "JSON", `Xml(Float, Int)` renamed "XML", `Other` with one field
"name", and `Unit`. -/
def deScenario : DataEnum :=
  ⟨"TestEnum",
    [.tupleV "Csv" ["String"], .tupleV "JSON" ["Integer"],
     .tupleV "XML" ["Double", "Integer"], .objectV "Other" ["name"],
     .unitV "Unit"]⟩

/-- A data enum with a single arity-1 Tuple variant. -/
def deUnary : DataEnum := ⟨"E", [.tupleV "T" ["A"]]⟩

/-- A factory-built value of `deUnary` whose single payload is a JSON
array (for example the variant payload type is a list). -/
def vUnary : DEValue := .tupleVal 0 [.arr []]

/-- A program with one data enum whose single variant holds its own
type boxed, like the repository test's `Nested(Box<TestEnum<T>>)`. -/
def envCyclic : Env := [⟨.dataEnumE, [.boxT (.userT 0)]⟩]

/-- The IR produced by registering `userT 0` of `envCyclic`: the entity
is pushed twice because `Box<T>::add_to_ir` forwards to `T::add_to_ir`
without consulting `type_ids`. -/
def irCyclic : IR := ⟨[], [], [0, 0], [.boxT (.userT 0), .userT 0]⟩

/-- Every dependency type mentioned by any user definition of the
program: the only types the derive bodies ever pass to `add`. -/
def depsU (env : Env) : List Ty := (env.map UserDef.deps).flatten

/-- Number of dependency types not yet in the dedup set; the decreasing
measure of the collector. -/
def unseenCount (env : Env) (ir : IR) : Nat :=
  ((depsU env).toFinset.filter (fun t => t ∉ ir.type_ids)).card

theorem upper_lower_upper (c : Nat) (h : isAsciiUpper c = true) :
    toAsciiUpper (toAsciiLower c) = c := by
  simp only [isAsciiUpper, Bool.and_eq_true, decide_eq_true_eq] at h
  simp only [toAsciiLower, toAsciiUpper, isAsciiUpper, isAsciiLower, Bool.and_eq_true,
    decide_eq_true_eq]
  split_ifs <;> omega

theorem lower_eq_self (c : Nat) (h : isAsciiUpper c = false) : toAsciiLower c = c := by
  simp [toAsciiLower, h]

theorem camelChar_ne_underscore (c : Nat) (h : isCamelChar c = true) : c ≠ underscore := by
  simp only [isCamelChar, isAsciiLower, isAsciiUpper, isAsciiDigit, Bool.or_eq_true,
    Bool.and_eq_true, decide_eq_true_eq, underscore] at h ⊢
  omega

theorem lower_of_upper_ne_underscore (c : Nat) (h : isAsciiUpper c = true) :
    toAsciiLower c ≠ underscore := by
  simp only [isAsciiUpper, Bool.and_eq_true, decide_eq_true_eq] at h
  simp only [toAsciiLower, isAsciiUpper, Bool.and_eq_true, decide_eq_true_eq, underscore]
  split_ifs
  all_goals omega

theorem lower_not_upper (c : Nat) (h : isAsciiLower c = true) : isAsciiUpper c = false := by
  simp only [isAsciiLower, Bool.and_eq_true, decide_eq_true_eq] at h
  simp only [isAsciiUpper, Bool.and_eq_true, decide_eq_true_eq, Bool.eq_false_iff, ne_eq,
    not_and]
  omega

theorem upperSnakeChar_roundtrip (c : Nat) (h : isUpperSnakeChar c = true) :
    toAsciiUpper (toAsciiLower c) = c := by
  simp only [isUpperSnakeChar, isAsciiUpper, isAsciiDigit, Bool.or_eq_true, Bool.and_eq_true,
    decide_eq_true_eq, underscore] at h
  simp only [toAsciiLower, toAsciiUpper, isAsciiUpper, isAsciiLower, Bool.and_eq_true,
    decide_eq_true_eq]
  split_ifs <;> omega

theorem camelJoin_cons_ne (c : Nat) (l : List Nat) (h : c ≠ underscore) :
    camelJoin (c :: l) = c :: camelJoin l := by
  rw [camelJoin.eq_def]
  simp [h]

theorem camelJoin_cons_underscore (d : Nat) (l : List Nat) :
    camelJoin (underscore :: d :: l) = toAsciiUpper d :: camelJoin l := by
  rw [camelJoin.eq_def]
  simp

theorem camelJoin_camelBody (l : List Nat) (h : ∀ c ∈ l, isCamelChar c = true) :
    camelJoin (camelBody l) = l := by
  induction l with
  | nil => rfl
  | cons c rest ih =>
    have hc : isCamelChar c = true := h c (by simp)
    have hrest : ∀ d ∈ rest, isCamelChar d = true := fun d hd => h d (by simp [hd])
    by_cases hu : isAsciiUpper c = true
    · simp only [camelBody, hu, if_true, camelJoin_cons_underscore]
      rw [upper_lower_upper c hu, ih hrest]
    · have hu' : isAsciiUpper c = false := by
        cases hb : isAsciiUpper c with
        | false => rfl
        | true => exact absurd hb hu
      have hne : c ≠ underscore := camelChar_ne_underscore c hc
      simp only [camelBody, hu', Bool.false_eq_true, if_false]
      rw [camelJoin_cons_ne c _ hne, ih hrest]

theorem camelBody_append_upper (c : Nat) (pre rest : List Nat)
    (h : isAsciiUpper c = true) :
    camelBody (pre ++ c :: rest) = camelBody pre ++ underscore :: toAsciiLower c :: camelBody rest := by
  induction pre with
  | nil => simp [camelBody, h]
  | cons p ps ih =>
    simp only [List.cons_append, camelBody, ih]
    split_ifs <;> simp [ih]

/-- Claim C10: `Name::from_snake_case` stores any string verbatim, so
`as_snake_case` returns it unchanged and `as_upper_snake_case` returns
its ASCII uppercase, with no validation or normalization. -/
theorem c10_from_snake_case_identity (s : List Nat) :
    (Name.from_snake_case s).as_snake_case = s ∧
    (Name.from_snake_case s).as_upper_snake_case = s.map toAsciiUpper :=
  ⟨rfl, rfl⟩

/-- Claim C7 counterexample: on input "AB" (code points [65, 66]) the
source's `from_camel_case` produces "a_b" ([97, 95, 98]), inserting a
boundary before an uppercase letter that follows another uppercase
letter, while the claimed rule (boundary only after a lowercase letter)
produces "ab". -/
theorem c7_counterexample :
    Name.from_camel_case [65, 66] = ⟨[97, 95, 98]⟩ ∧
    claimedFromCamel [65, 66] = ⟨[97, 98]⟩ ∧
    Name.from_camel_case [65, 66] ≠ claimedFromCamel [65, 66] := by
  refine ⟨by decide, by decide, by decide⟩

/-- Claim C7 (amended): `from_camel_case` starts a new snake_case
segment immediately before every ASCII uppercase letter in non-initial
position, regardless of the preceding character; the first character is
never treated as a boundary, it is only lowercased. -/
theorem c7_camel_boundary (x c : Nat) (pre rest : List Nat) (h : isAsciiUpper c = true) :
    (Name.from_camel_case (x :: (pre ++ c :: rest))).snake_case
        = (Name.from_camel_case (x :: pre)).snake_case
          ++ underscore :: toAsciiLower c :: camelBody rest ∧
    (Name.from_camel_case (c :: rest)).snake_case = toAsciiLower c :: camelBody rest := by
  constructor
  · simp only [Name.from_camel_case, camelBody_append_upper c pre rest h, List.cons_append]
  · simp [Name.from_camel_case]

/-- Witness for `c7_camel_boundary` at x = 'a', c = 'B'. -/
theorem c7_camel_boundary_witness :
    isAsciiUpper 66 = true ∧
    ((Name.from_camel_case ([97] ++ [66])).snake_case
        = (Name.from_camel_case [97]).snake_case ++ underscore :: toAsciiLower 66 :: camelBody [] ∧
      (Name.from_camel_case [66]).snake_case = toAsciiLower 66 :: camelBody []) := by
  refine ⟨by decide, ?_⟩
  have h := c7_camel_boundary 97 66 [] [] (by decide)
  simpa using h

/-- Claim C8: for each of the four case styles, converting a string
valid in that style into the canonical `Name` and back to the same
style reproduces it exactly (`from_upper_snake_case` is spec-modelled,
see its definition). -/
theorem c8_roundtrip (s : List Nat) :
    (validSnakeStr s = true → (Name.from_snake_case s).as_snake_case = s) ∧
    (validCamelStr s = true → (Name.from_camel_case s).as_camel_case = s) ∧
    (validPascalStr s = true → (Name.from_pascal_case s).as_pascal_case = s) ∧
    (validUpperSnakeStr s = true → (Name.from_upper_snake_case s).as_upper_snake_case = s) := by
  refine ⟨fun _ => rfl, ?_, ?_, ?_⟩
  · intro h
    cases s with
    | nil => rfl
    | cons c rest =>
      simp only [validCamelStr, Bool.and_eq_true, List.all_cons] at h
      obtain ⟨⟨hc, hrest⟩, hlow⟩ := h
      have hup : isAsciiUpper c = false := lower_not_upper c hlow
      have hne : c ≠ underscore := camelChar_ne_underscore c hc
      simp only [Name.from_camel_case, Name.as_camel_case, lower_eq_self c hup]
      rw [camelJoin_cons_ne c _ hne,
        camelJoin_camelBody rest (by simpa [List.all_eq_true] using hrest)]
  · intro h
    cases s with
    | nil => rfl
    | cons c rest =>
      simp only [validPascalStr, Bool.and_eq_true, List.all_cons] at h
      obtain ⟨⟨hc, hrest⟩, hup⟩ := h
      have hne : toAsciiLower c ≠ underscore := lower_of_upper_ne_underscore c hup
      simp only [Name.from_pascal_case, Name.from_camel_case, Name.as_pascal_case,
        Name.as_camel_case]
      rw [camelJoin_cons_ne _ _ hne,
        camelJoin_camelBody rest (by simpa [List.all_eq_true] using hrest)]
      simp [upper_lower_upper c hup]
  · intro h
    simp only [validUpperSnakeStr, List.all_eq_true] at h
    simp only [Name.from_upper_snake_case, Name.as_upper_snake_case, List.map_map]
    exact List.map_congr_left (fun c hc => upperSnakeChar_roundtrip c (h c hc)) |>.trans
      s.map_id

/-- Witness for `c8_roundtrip`: "a_b" (snake), "aB" (camel), "Ab"
(Pascal), "A_B" (upper snake). -/
theorem c8_roundtrip_witness :
    (validSnakeStr [97, 95, 98] = true ∧
      (Name.from_snake_case [97, 95, 98]).as_snake_case = [97, 95, 98]) ∧
    (validCamelStr [97, 66] = true ∧
      (Name.from_camel_case [97, 66]).as_camel_case = [97, 66]) ∧
    (validPascalStr [65, 98] = true ∧
      (Name.from_pascal_case [65, 98]).as_pascal_case = [65, 98]) ∧
    (validUpperSnakeStr [65, 95, 66] = true ∧
      (Name.from_upper_snake_case [65, 95, 66]).as_upper_snake_case = [65, 95, 66]) :=
  ⟨⟨by decide, (c8_roundtrip [97, 95, 98]).1 (by decide)⟩,
   ⟨by decide, (c8_roundtrip [97, 66]).2.1 (by decide)⟩,
   ⟨by decide, (c8_roundtrip [65, 98]).2.2.1 (by decide)⟩,
   ⟨by decide, (c8_roundtrip [65, 95, 66]).2.2.2 (by decide)⟩⟩

theorem mem_unitTagsL (l : List DEVariant) (vi : Nat) (jn : String)
    (h : l.get? vi = some (.unitV jn)) : jn ∈ unitTagsL l := by
  have hm : DEVariant.unitV jn ∈ l := List.get?_mem h
  exact List.mem_filterMap.mpr ⟨_, hm, rfl⟩

theorem mem_nonUnitTagsL (l : List DEVariant) (vi : Nat) (v : DEVariant)
    (h : l.get? vi = some v) (hsh : v.isUnitShape = false) :
    v.jsonName ∈ nonUnitTagsL l := by
  have hm : v ∈ l := List.get?_mem h
  cases v with
  | unitV jn => simp [DEVariant.isUnitShape] at hsh
  | objectV jn f => exact List.mem_filterMap.mpr ⟨_, hm, rfl⟩
  | tupleV jn f => exact List.mem_filterMap.mpr ⟨_, hm, rfl⟩

theorem unitLookup_nodup (jn : String) :
    ∀ (l : List DEVariant) (vi i : Nat), l.get? vi = some (.unitV jn) →
      (unitTagsL l).Nodup → unitLookup l jn i = some (i + vi) := by
  intro l
  induction l with
  | nil => intro vi i h _; simp at h
  | cons u rest ih =>
    intro vi i h hnd
    cases vi with
    | zero =>
      simp only [List.get?_cons_zero, Option.some.injEq] at h
      subst h
      simp [unitLookup]
    | succ m =>
      have hrest : rest.get? m = some (.unitV jn) := by simpa using h
      cases u with
      | unitV j2 =>
        have hmem : jn ∈ unitTagsL rest := mem_unitTagsL rest m jn hrest
        have hcons : unitTagsL (DEVariant.unitV j2 :: rest) = j2 :: unitTagsL rest := by
          simp [unitTagsL]
        rw [hcons, List.nodup_cons] at hnd
        have hne : j2 ≠ jn := fun he => hnd.1 (he ▸ hmem)
        rw [show i + (m + 1) = (i + 1) + m by omega]
        simp only [unitLookup, if_neg hne]
        exact ih m (i + 1) hrest hnd.2
      | objectV j2 f =>
        have hcons : unitTagsL (DEVariant.objectV j2 f :: rest) = unitTagsL rest := by
          simp [unitTagsL]
        rw [hcons] at hnd
        rw [show i + (m + 1) = (i + 1) + m by omega]
        simp only [unitLookup]
        exact ih m (i + 1) hrest hnd
      | tupleV j2 f =>
        have hcons : unitTagsL (DEVariant.tupleV j2 f :: rest) = unitTagsL rest := by
          simp [unitTagsL]
        rw [hcons] at hnd
        rw [show i + (m + 1) = (i + 1) + m by omega]
        simp only [unitLookup]
        exact ih m (i + 1) hrest hnd

theorem objLookup_first (node : List (String × Json)) :
    ∀ (l : List DEVariant) (vi i : Nat) (v : DEVariant),
      l.get? vi = some v → v.isUnitShape = false → hasKey node v.jsonName = true →
      (∀ k w, k < vi → l.get? k = some w → w.isUnitShape = false →
        hasKey node w.jsonName = false) →
      objLookup l node i = some (i + vi, v) := by
  intro l
  induction l with
  | nil => intro vi i v h; simp at h
  | cons u rest ih =>
    intro vi i v h hsh hkey hearlier
    have hshift : ∀ k w, k < vi - 1 → rest.get? k = some w → w.isUnitShape = false →
        hasKey node w.jsonName = false := by
      intro k w hk hw hshw
      refine hearlier (k + 1) w (by omega) (by simpa using hw) hshw
    cases vi with
    | zero =>
      simp only [List.get?_cons_zero, Option.some.injEq] at h
      subst h
      cases u with
      | unitV jn => simp [DEVariant.isUnitShape] at hsh
      | objectV jn f => simp [objLookup, hkey]
      | tupleV jn f => simp [objLookup, hkey]
    | succ m =>
      have hrest : rest.get? m = some v := by simpa using h
      rw [show i + (m + 1) = (i + 1) + m by omega]
      cases u with
      | unitV j2 =>
        simp only [objLookup]
        exact ih m (i + 1) v hrest hsh hkey (by simpa using hshift)
      | objectV j2 f =>
        have hk2 : hasKey node (DEVariant.objectV j2 f).jsonName = false :=
          hearlier 0 _ (Nat.succ_pos m) rfl rfl
        simp only [objLookup, hk2, Bool.false_eq_true, if_false]
        exact ih m (i + 1) v hrest hsh hkey (by simpa using hshift)
      | tupleV j2 f =>
        have hk2 : hasKey node (DEVariant.tupleV j2 f).jsonName = false :=
          hearlier 0 _ (Nat.succ_pos m) rfl rfl
        simp only [objLookup, hk2, Bool.false_eq_true, if_false]
        exact ih m (i + 1) v hrest hsh hkey (by simpa using hshift)

theorem holder_fields_roundtrip :
    ∀ (fnames : List String) (fvals : List Json), fnames.Nodup →
      fvals.length = fnames.length →
      (fnames.map fun fn => (jlookup (fnames.zip fvals) fn).getD Json.null) = fvals := by
  intro fnames
  induction fnames with
  | nil =>
    intro fvals _ hlen
    cases fvals with
    | nil => rfl
    | cons x xs => simp at hlen
  | cons f fs ih =>
    intro fvals hnd hlen
    cases fvals with
    | nil => simp at hlen
    | cons x xs =>
      have hf : f ∉ fs := (List.nodup_cons.mp hnd).1
      have hnd' : fs.Nodup := (List.nodup_cons.mp hnd).2
      have hlen' : xs.length = fs.length := by simpa using hlen
      simp only [List.zip_cons_cons, List.map_cons, jlookup, if_pos rfl, Option.getD_some]
      refine congrArg (x :: ·) ?_
      calc fs.map (fun fn => (jlookup ((f, x) :: fs.zip xs) fn).getD Json.null)
          = fs.map (fun fn => (jlookup (fs.zip xs) fn).getD Json.null) := by
            refine List.map_congr_left fun fn hfn => ?_
            have hne : f ≠ fn := fun he => hf (he ▸ hfn)
            simp [jlookup, hne]
        _ = xs := ih xs hnd' hlen'

/-- Claim C2: the generated serializer produces exactly the external
tagging encoding: a Unit variant serializes to the bare wire-tag string;
an Object variant to a single-key object holding the payload object
keyed by field wire tags; a Tuple variant of arity 1 to a single-key
object holding the single payload value unwrapped; a Tuple variant of
arity above 1 to a single-key object holding the positional array. -/
theorem c2_serializer_wire_format (de : DataEnum) (vi : Nat) (jn : String)
    (fnames tys : List String) (fvals slots : List Json) (x : Json) :
    (de.variants.get? vi = some (.unitV jn) →
      serialize de (.unitVal vi) = some (.str jn)) ∧
    (de.variants.get? vi = some (.objectV jn fnames) →
      serialize de (.objectVal vi fvals) =
        some (.obj [(jn, .obj (fnames.zip fvals))])) ∧
    (de.variants.get? vi = some (.tupleV jn tys) → tys.length = 1 →
      serialize de (.tupleVal vi [x]) = some (.obj [(jn, x)])) ∧
    (de.variants.get? vi = some (.tupleV jn tys) → 1 < tys.length →
      serialize de (.tupleVal vi slots) = some (.obj [(jn, .arr slots)])) := by
  refine ⟨fun h => ?_, fun h => ?_, fun h h1 => ?_, fun h h1 => ?_⟩
  · simp only [List.get?_eq_getElem?] at h
    simp [serialize, h]
  · simp only [List.get?_eq_getElem?] at h
    simp [serialize, h, serializeHolder]
  · simp only [List.get?_eq_getElem?] at h
    simp [serialize, h, h1]
  · simp only [List.get?_eq_getElem?] at h
    have hne : tys.length ≠ 1 := by omega
    simp [serialize, h, hne]

/-- Witness for `c2_serializer_wire_format` on the scenario enum:
serializing `Unit`, `Other di name "x" end`, `Csv("test")` and
`Xml(3.5, 7)`. -/
theorem c2_serializer_wire_format_witness :
    (deScenario.variants.get? 4 = some (.unitV "Unit") ∧
      serialize deScenario (.unitVal 4) = some (.str "Unit")) ∧
    (deScenario.variants.get? 3 = some (.objectV "Other" ["name"]) ∧
      serialize deScenario (.objectVal 3 [.str "x"]) =
        some (.obj [("Other", .obj [("name", .str "x")])])) ∧
    (deScenario.variants.get? 0 = some (.tupleV "Csv" ["String"]) ∧
      serialize deScenario (.tupleVal 0 [.str "test"]) =
        some (.obj [("Csv", .str "test")])) ∧
    (deScenario.variants.get? 2 = some (.tupleV "XML" ["Double", "Integer"]) ∧
      serialize deScenario (.tupleVal 2 [.lit "3.5", .lit "7"]) =
        some (.obj [("XML", .arr [.lit "3.5", .lit "7"])])) :=
  ⟨⟨rfl, (c2_serializer_wire_format deScenario 4 "Unit" [] [] [] [] Json.null).1 rfl⟩,
   ⟨rfl, (c2_serializer_wire_format deScenario 3 "Other" ["name"] [] [.str "x"] []
      Json.null).2.1 rfl⟩,
   ⟨rfl, (c2_serializer_wire_format deScenario 0 "Csv" [] ["String"] [] []
      (.str "test")).2.2.1 rfl rfl⟩,
   ⟨rfl, (c2_serializer_wire_format deScenario 2 "XML" [] ["Double", "Integer"] []
      [.lit "3.5", .lit "7"] Json.null).2.2.2 rfl (by decide)⟩⟩

/-- Claim C5: when the input JSON object contains keys equal to several
declared non-Unit variants' wire tags, the generated deserializer
processes exactly the variant declared first among those whose tag key
is present, and any value it constructs carries that variant's
discriminant. -/
theorem c5_first_declared_wins (de : DataEnum) (node : List (String × Json))
    (vi : Nat) (v : DEVariant)
    (hv : de.variants.get? vi = some v)
    (hsh : v.isUnitShape = false)
    (hkey : hasKey node v.jsonName = true)
    (hearlier : ∀ k w, k < vi → de.variants.get? k = some w → w.isUnitShape = false →
      hasKey node w.jsonName = false) :
    deserialize de (.obj node) = applyNonUnitCase node vi v ∧
    ∀ w, applyNonUnitCase node vi v = .ok w → w.variantIndex = vi := by
  have hlook := objLookup_first node de.variants vi 0 v hv hsh hkey hearlier
  refine ⟨by simp [deserialize, hlook], fun w hw => ?_⟩
  cases v with
  | unitV jn => simp [applyNonUnitCase] at hw
  | objectV jn fnames =>
    simp only [applyNonUnitCase] at hw
    split at hw
    · exact absurd hw (by simp)
    · split at hw
      · exact absurd hw (by simp)
      · injection hw with h2
        subst h2
        rfl
  | tupleV jn tys =>
    simp only [applyNonUnitCase] at hw
    split at hw
    · exact absurd hw (by simp)
    · injection hw with h2
      subst h2
      rfl

/-- Witness for `c5_first_declared_wins`: an object carrying both the
"XML" and the "Other" keys of the scenario enum deserializes through the
earlier-declared Xml variant. -/
theorem c5_first_declared_wins_witness :
    deserialize deScenario
        (.obj [("XML", .arr [.lit "1.0", .lit "2"]), ("Other", .obj [("name", .str "x")])])
      = .ok (.tupleVal 2 [.lit "1.0", .lit "2"]) := by
  have h := c5_first_declared_wins deScenario
    [("XML", .arr [.lit "1.0", .lit "2"]), ("Other", .obj [("name", .str "x")])]
    2 (.tupleV "XML" ["Double", "Integer"]) rfl rfl rfl ?_
  · exact h.1.trans rfl
  · intro k w hk hw hshw
    interval_cases k
    · rw [show deScenario.variants.get? 0 = some (DEVariant.tupleV "Csv" ["String"]) from rfl]
        at hw
      injection hw with h2
      subst h2
      rfl
    · rw [show deScenario.variants.get? 1 = some (DEVariant.tupleV "JSON" ["Integer"]) from rfl]
        at hw
      injection hw with h2
      subst h2
      rfl

/-- Claim C6: a Tuple variant whose matched payload is an array of the
wrong length fails with the descriptive arity error (no truncation or
padding); a string token matching no Unit tag, an object containing no
declared non-Unit tag, or any other token kind all fail with the single
error naming the target type. -/
theorem c6_arity_and_failure (de : DataEnum) (node : List (String × Json))
    (s : String) (j : Json) :
    (∀ vi jn tys elems, objLookup de.variants node 0 = some (vi, .tupleV jn tys) →
      jlookup node jn = some (.arr elems) → elems.length ≠ tys.length →
      deserialize de (.obj node) =
        .error (.parse ("Expected array of size " ++ toString tys.length ++
          " for field " ++ jn))) ∧
    (unitLookup de.variants s 0 = none →
      deserialize de (.str s) =
        .error (.instantiation ("Cannot deserialize " ++ de.name))) ∧
    (objLookup de.variants node 0 = none →
      deserialize de (.obj node) =
        .error (.instantiation ("Cannot deserialize " ++ de.name))) ∧
    ((∀ s2, j ≠ .str s2) → (∀ n2, j ≠ .obj n2) →
      deserialize de j =
        .error (.instantiation ("Cannot deserialize " ++ de.name))) := by
  refine ⟨?_, fun h => by simp [deserialize, h], fun h => by simp [deserialize, h], ?_⟩
  · intro vi jn tys elems hlook hfield hlen
    simp [deserialize, hlook, applyNonUnitCase, parseField, hfield, Json.isArr, hlen]
  · intro h1 h2
    cases j with
    | str s2 => exact absurd rfl (h1 s2)
    | obj n2 => exact absurd rfl (h2 n2)
    | null => simp [deserialize]
    | arr es => simp [deserialize]
    | lit t => simp [deserialize]

/-- Witness for `c6_arity_and_failure`: the scenario enum rejects an
"XML" payload array of length 1 (declared arity 2) with the arity error,
rejects an unknown tag string, and rejects a bare number token. -/
theorem c6_arity_and_failure_witness :
    deserialize deScenario (.obj [("XML", .arr [.lit "1"])]) =
      .error (.parse "Expected array of size 2 for field XML") ∧
    deserialize deScenario (.str "Nope") =
      .error (.instantiation "Cannot deserialize TestEnum") ∧
    deserialize deScenario (.lit "5") =
      .error (.instantiation "Cannot deserialize TestEnum") := by
  refine ⟨?_, ?_, ?_⟩
  · exact (c6_arity_and_failure deScenario [("XML", .arr [.lit "1"])] "" (.lit "")).1
      2 "XML" ["Double", "Integer"] [.lit "1"] rfl rfl (by decide)
  · exact (c6_arity_and_failure deScenario [] "Nope" (.lit "")).2.1 rfl
  · exact (c6_arity_and_failure deScenario [] "" (.lit "5")).2.2.2
      (fun s2 h => Json.noConfusion h) (fun n2 h => Json.noConfusion h)

theorem applyNonUnitCase_not_invalidState (node : List (String × Json)) (i : Nat)
    (v : DEVariant) (m : String) :
    applyNonUnitCase node i v ≠ .error (.invalidState m) := by
  cases v with
  | unitV jn => simp [applyNonUnitCase]
  | objectV jn fnames =>
    simp only [applyNonUnitCase]
    split
    · simp
    · split
      · simp
      · simp
  | tupleV jn tys =>
    simp only [applyNonUnitCase]
    split
    · simp
    · simp

/-- Claim C9: an accessor invoked on the wrong variant fails with the
invalid-state error; deserialization never produces an invalid-state
error (its failures are wire errors); and on the matching variant the
accessors return the stored payload. -/
theorem c9_accessors (de : DataEnum) (expected k : Nat) (v : DEValue)
    (fvals slots : List Json) (j : Json) (m : String) :
    (v.variantIndex ≠ expected →
      getObjectPayload expected v =
        .error (.invalidState ("Invalid variant: " ++ toString v.variantIndex)) ∧
      getTupleSlot expected k v =
        .error (.invalidState ("Invalid variant: " ++ toString v.variantIndex))) ∧
    getObjectPayload expected (.objectVal expected fvals) = .ok fvals ∧
    (∀ x, slots.get? k = some x →
      getTupleSlot expected k (.tupleVal expected slots) = .ok x) ∧
    deserialize de j ≠ .error (.invalidState m) := by
  refine ⟨fun h => ⟨by simp [getObjectPayload, h], by simp [getTupleSlot, h]⟩,
    by simp [getObjectPayload, DEValue.variantIndex], fun x hx => ?_, ?_⟩
  · simp only [List.get?_eq_getElem?] at hx
    simp [getTupleSlot, DEValue.variantIndex, List.getD, hx]
  · cases j with
    | str s =>
      simp only [deserialize]
      cases h2 : unitLookup de.variants s 0 <;> simp
    | obj node =>
      simp only [deserialize]
      cases h2 : objLookup de.variants node 0 with
      | none => simp
      | some p => exact applyNonUnitCase_not_invalidState node p.1 p.2 m
    | null => simp [deserialize]
    | arr es => simp [deserialize]
    | lit t => simp [deserialize]

/-- Witness for `c9_accessors`: wrong-variant access on a Unit instance
of the scenario enum, right-variant access on Object and Tuple
instances, and a deserialization that fails with a wire error only. -/
theorem c9_accessors_witness :
    getObjectPayload 3 (.unitVal 4) = .error (.invalidState "Invalid variant: 4") ∧
    getObjectPayload 3 (.objectVal 3 [.str "x"]) = .ok [.str "x"] ∧
    getTupleSlot 2 1 (.tupleVal 2 [.lit "3.5", .lit "7"]) = .ok (.lit "7") ∧
    deserialize deScenario (.lit "5") ≠ .error (.invalidState "Invalid variant: 4") := by
  refine ⟨?_, ?_, ?_, ?_⟩
  · exact ((c9_accessors deScenario 3 1 (.unitVal 4) [] [] (.lit "") "").1
      (by decide)).1
  · exact (c9_accessors deScenario 3 1 (.unitVal 0) [.str "x"] [] (.lit "") "").2.1
  · exact (c9_accessors deScenario 2 1 (.unitVal 0) [] [.lit "3.5", .lit "7"]
      (.lit "") "").2.2.1 (.lit "7") rfl
  · exact (c9_accessors deScenario 0 0 (.unitVal 0) [] [] (.lit "5")
      "Invalid variant: 4").2.2.2

theorem nonUnitTagsL_cons_nonunit (w : DEVariant) (rest : List DEVariant)
    (hsh : w.isUnitShape = false) :
    nonUnitTagsL (w :: rest) = w.jsonName :: nonUnitTagsL rest := by
  cases w with
  | unitV jn => simp [DEVariant.isUnitShape] at hsh
  | objectV jn f => simp [nonUnitTagsL, DEVariant.jsonName]
  | tupleV jn f => simp [nonUnitTagsL, DEVariant.jsonName]

theorem nonUnitTagsL_tail_nodup (u : DEVariant) (rest : List DEVariant)
    (hnd : (nonUnitTagsL (u :: rest)).Nodup) : (nonUnitTagsL rest).Nodup := by
  cases u with
  | unitV jn => simpa [nonUnitTagsL] using hnd
  | objectV jn f =>
    rw [nonUnitTagsL_cons_nonunit (DEVariant.objectV jn f) rest rfl] at hnd
    exact hnd.of_cons
  | tupleV jn f =>
    rw [nonUnitTagsL_cons_nonunit (DEVariant.tupleV jn f) rest rfl] at hnd
    exact hnd.of_cons

theorem nonUnit_tags_distinct :
    ∀ (l : List DEVariant) (k vi : Nat) (w v : DEVariant),
      k < vi → l.get? k = some w → l.get? vi = some v →
      w.isUnitShape = false → v.isUnitShape = false →
      (nonUnitTagsL l).Nodup → w.jsonName ≠ v.jsonName := by
  intro l
  induction l with
  | nil => intro k vi w v hk hw hv; simp at hw
  | cons u rest ih =>
    intro k vi w v hk hw hv hshw hshv hnd
    cases k with
    | zero =>
      simp only [List.get?_cons_zero, Option.some.injEq] at hw
      subst hw
      cases vi with
      | zero => omega
      | succ m =>
        have hv2 : rest.get? m = some v := by simpa using hv
        have hmem : v.jsonName ∈ nonUnitTagsL rest := mem_nonUnitTagsL rest m v hv2 hshv
        rw [nonUnitTagsL_cons_nonunit u rest hshw] at hnd
        exact fun he => (List.nodup_cons.mp hnd).1 (he ▸ hmem)
    | succ k2 =>
      cases vi with
      | zero => omega
      | succ m =>
        exact ih k2 m w v (by omega) (by simpa using hw) (by simpa using hv) hshw hshv
          (nonUnitTagsL_tail_nodup u rest hnd)

theorem singleton_node_earlier (de : DataEnum) (vi : Nat) (v : DEVariant) (p : Json)
    (hget : de.variants.get? vi = some v) (hshv : v.isUnitShape = false)
    (hnn : (nonUnitTagsL de.variants).Nodup) :
    ∀ k w, k < vi → de.variants.get? k = some w → w.isUnitShape = false →
      hasKey [(v.jsonName, p)] w.jsonName = false := by
  intro k w hk hw hshw
  have hne := nonUnit_tags_distinct de.variants k vi w v hk hw hget hshw hshv hnn
  simp only [hasKey, List.any_cons, List.any_nil, Bool.or_false, decide_eq_false_iff_not]
  exact fun he => hne he.symm

/-- Claim C1 counterexample: the factory-built value `T([])` of a data
enum with one arity-1 Tuple variant (payload of a list type) serializes
to a single-key object holding the array, but deserializing that output
fails with the arity error instead of returning an equal value, because
`parseField` reads any array payload as the positional slot array. -/
theorem c1_counterexample :
    wfValue deUnary vUnary ∧
    serialize deUnary vUnary = some (.obj [("T", .arr [])]) ∧
    deserialize deUnary (.obj [("T", .arr [])]) =
      .error (.parse "Expected array of size 1 for field T") ∧
    deserialize deUnary (.obj [("T", .arr [])]) ≠ .ok vUnary := by
  refine ⟨⟨"T", ["A"], rfl, rfl⟩, rfl, rfl, fun h => ?_⟩
  rw [show deserialize deUnary (.obj [("T", .arr [])]) =
    .error (.parse "Expected array of size 1 for field T") from rfl] at h
  exact Except.noConfusion h

/-- Claim C1 (amended): for a data enum whose variant wire tags are
pairwise distinct (among Unit variants and among non-Unit variants) and
whose Object variants have pairwise distinct field wire tags,
deserializing the serialized form of any factory-built value returns an
equal value — provided no arity-1 Tuple payload is itself a JSON array. -/
theorem c1_roundtrip (de : DataEnum) (v : DEValue)
    (hde : wfEnum de) (hv : wfValue de v) (hfree : unaryTupleArrayFree v) :
    ∃ j, serialize de v = some j ∧ deserialize de j = .ok v := by
  obtain ⟨hnu, hnn, hflds⟩ := hde
  cases v with
  | unitVal vi =>
    obtain ⟨jn, hget⟩ := hv
    have hget2 := hget
    simp only [List.get?_eq_getElem?] at hget2
    refine ⟨.str jn, by simp [serialize, hget2], ?_⟩
    have hlook := unitLookup_nodup jn de.variants vi 0 hget hnu
    simp [deserialize, hlook]
  | objectVal vi fvals =>
    obtain ⟨jn, fnames, hget, hlen⟩ := hv
    have hget2 := hget
    simp only [List.get?_eq_getElem?] at hget2
    have hnodf : fnames.Nodup := by
      have hm := List.get?_mem hget
      simpa [fieldsNodup] using hflds _ hm
    refine ⟨.obj [(jn, serializeHolder fnames fvals)],
      by simp [serialize, hget2], ?_⟩
    have hkey : hasKey [(jn, serializeHolder fnames fvals)]
        (DEVariant.objectV jn fnames).jsonName = true := by
      simp [hasKey, DEVariant.jsonName]
    have hearlier := singleton_node_earlier de vi (.objectV jn fnames)
      (serializeHolder fnames fvals) hget rfl hnn
    have hlook := objLookup_first [(jn, serializeHolder fnames fvals)] de.variants vi 0
      (.objectV jn fnames) hget rfl hkey hearlier
    have hpf : parseField [(jn, serializeHolder fnames fvals)] jn 1 =
        .ok [serializeHolder fnames fvals] := by
      simp [parseField, jlookup, serializeHolder, Json.isArr]
    have hread : readHolder fnames (serializeHolder fnames fvals) = .ok fvals := by
      simp [readHolder, serializeHolder, holder_fields_roundtrip fnames fvals hnodf hlen]
    have happ : applyNonUnitCase [(jn, serializeHolder fnames fvals)] vi
        (.objectV jn fnames) = .ok (.objectVal vi fvals) := by
      simp [applyNonUnitCase, hpf, hread]
    simp [deserialize, hlook, happ]
  | tupleVal vi slots =>
    obtain ⟨jn, tys, hget, hlen⟩ := hv
    have hget2 := hget
    simp only [List.get?_eq_getElem?] at hget2
    have hearlier := fun p => singleton_node_earlier de vi (.tupleV jn tys) p hget rfl hnn
    have hkey : ∀ p, hasKey [(jn, p)] (DEVariant.tupleV jn tys).jsonName = true := by
      intro p
      simp [hasKey, DEVariant.jsonName]
    by_cases h1 : tys.length = 1
    · have hslen : slots.length = 1 := by omega
      obtain ⟨x, rfl⟩ := List.length_eq_one.mp hslen
      have hxfree : x.isArr = false := by
        simp only [unaryTupleArrayFree] at hfree
        exact hfree (by simp) x (by simp)
      refine ⟨.obj [(jn, x)], by simp [serialize, hget2, h1], ?_⟩
      have hlook := objLookup_first [(jn, x)] de.variants vi 0 (.tupleV jn tys) hget rfl
        (hkey x) (hearlier x)
      have hpf : parseField [(jn, x)] jn tys.length = .ok [x] := by
        rw [h1]
        simp [parseField, jlookup, hxfree]
      have happ : applyNonUnitCase [(jn, x)] vi (.tupleV jn tys) =
          .ok (.tupleVal vi [x]) := by
        simp [applyNonUnitCase, hpf]
      simp [deserialize, hlook, happ]
    · refine ⟨.obj [(jn, .arr slots)], by simp [serialize, hget2, h1], ?_⟩
      have hlook := objLookup_first [(jn, .arr slots)] de.variants vi 0 (.tupleV jn tys)
        hget rfl (hkey (.arr slots)) (hearlier (.arr slots))
      have hpf : parseField [(jn, .arr slots)] jn tys.length = .ok slots := by
        simp [parseField, jlookup, Json.isArr, hlen]
      have happ : applyNonUnitCase [(jn, .arr slots)] vi (.tupleV jn tys) =
          .ok (.tupleVal vi slots) := by
        simp [applyNonUnitCase, hpf]
      simp [deserialize, hlook, happ]

/-- Witness for `c1_roundtrip`: the scenario value `Xml(3.5, 7)` round
trips through its wire form. -/
theorem c1_roundtrip_witness :
    wfEnum deScenario ∧ wfValue deScenario (.tupleVal 2 [.lit "3.5", .lit "7"]) ∧
    unaryTupleArrayFree (.tupleVal 2 [.lit "3.5", .lit "7"]) ∧
    ∃ j, serialize deScenario (.tupleVal 2 [.lit "3.5", .lit "7"]) = some j ∧
      deserialize deScenario j = .ok (.tupleVal 2 [.lit "3.5", .lit "7"]) := by
  have hflds : ∀ w ∈ deScenario.variants, fieldsNodup w := by
    intro w hw
    fin_cases hw <;> simp [fieldsNodup]
  have hde : wfEnum deScenario := ⟨by decide, by decide, hflds⟩
  have hwv : wfValue deScenario (.tupleVal 2 [.lit "3.5", .lit "7"]) :=
    ⟨"XML", ["Double", "Integer"], rfl, rfl⟩
  have hfree : unaryTupleArrayFree (.tupleVal 2 [.lit "3.5", .lit "7"]) :=
    fun h => absurd h (by simp)
  exact ⟨hde, hwv, hfree, c1_roundtrip deScenario _ hde hwv hfree⟩

theorem pushEntity_type_ids (env : Env) (i : Nat) (ir : IR) :
    (pushEntity env i ir).type_ids = ir.type_ids := by
  simp only [pushEntity]
  split <;> rfl

theorem addTypeId_subset (ir : IR) (t : Ty) : ir.type_ids ⊆ (addTypeId ir t).type_ids := by
  simp only [addTypeId]
  split
  · exact List.Subset.refl _
  · exact fun a ha => List.mem_cons_of_mem _ ha

theorem addF_succ (env : Env) (fuel : Nat) (t : Ty) (ir : IR) :
    addF env (fuel + 1) t ir =
      if hasTypeId ir t then some ir else addToIrF env fuel t (addTypeId ir t) := rfl

theorem addToIrF_succ_vec (env : Env) (fuel : Nat) (e : Ty) (ir : IR) :
    addToIrF env (fuel + 1) (.vecT e) ir = addToIrF env fuel e ir := rfl

theorem addToIrF_succ_opt (env : Env) (fuel : Nat) (e : Ty) (ir : IR) :
    addToIrF env (fuel + 1) (.optT e) ir = addToIrF env fuel e ir := rfl

theorem addToIrF_succ_box (env : Env) (fuel : Nat) (e : Ty) (ir : IR) :
    addToIrF env (fuel + 1) (.boxT e) ir = addToIrF env fuel e ir := rfl

theorem addToIrF_succ_map (env : Env) (fuel : Nat) (a b : Ty) (ir : IR) :
    addToIrF env (fuel + 1) (.mapT a b) ir =
      (addToIrF env fuel a ir).bind (addToIrF env fuel b) := rfl

theorem addToIrF_succ_user (env : Env) (fuel i : Nat) (ir : IR) :
    addToIrF env (fuel + 1) (.userT i) ir =
      (addDepsF env fuel (envDef env i).deps ir).map (pushEntity env i) := rfl

theorem addDepsF_succ_cons (env : Env) (fuel : Nat) (d : Ty) (ds : List Ty) (ir : IR) :
    addDepsF env (fuel + 1) (d :: ds) ir =
      (addF env fuel d ir).bind (addDepsF env fuel ds) := rfl

theorem mem_addTypeId (ir : IR) (t : Ty) : t ∈ (addTypeId ir t).type_ids := by
  simp only [addTypeId]
  split
  · assumption
  · exact List.mem_cons_self _ _

theorem fuel_mono (env : Env) :
    ∀ n, (∀ t ir r, addF env n t ir = some r → addF env (n + 1) t ir = some r) ∧
      (∀ t ir r, addToIrF env n t ir = some r → addToIrF env (n + 1) t ir = some r) ∧
      (∀ ds ir r, addDepsF env n ds ir = some r → addDepsF env (n + 1) ds ir = some r) := by
  intro n
  induction n with
  | zero =>
    exact ⟨fun t ir r h => by simp [addF] at h, fun t ir r h => by simp [addToIrF] at h,
      fun ds ir r h => by simp [addDepsF] at h⟩
  | succ m ih =>
    obtain ⟨ihA, ihT, ihD⟩ := ih
    refine ⟨?_, ?_, ?_⟩
    · intro t ir r h
      rw [addF_succ] at h ⊢
      by_cases hs : hasTypeId ir t = true
      · simpa [hs] using h
      · have hs2 : hasTypeId ir t = false := by
          cases hb : hasTypeId ir t
          · rfl
          · exact absurd hb hs
        simp only [hs2, Bool.false_eq_true, if_false] at h ⊢
        exact ihT _ _ _ h
    · intro t ir r h
      cases t with
      | boolT => exact h
      | i8T => exact h
      | i16T => exact h
      | i32T => exact h
      | i64T => exact h
      | f32T => exact h
      | f64T => exact h
      | strT => exact h
      | vecT e =>
        rw [addToIrF_succ_vec] at h ⊢
        exact ihT _ _ _ h
      | optT e =>
        rw [addToIrF_succ_opt] at h ⊢
        exact ihT _ _ _ h
      | boxT e =>
        rw [addToIrF_succ_box] at h ⊢
        exact ihT _ _ _ h
      | mapT a b =>
        rw [addToIrF_succ_map] at h ⊢
        rcases Option.bind_eq_some.mp h with ⟨mid, h1, h2⟩
        rw [ihT _ _ _ h1]
        simpa using ihT _ _ _ h2
      | userT i =>
        rw [addToIrF_succ_user] at h ⊢
        rcases Option.map_eq_some'.mp h with ⟨mid, h1, h2⟩
        rw [ihD _ _ _ h1]
        simp [h2]
    · intro ds ir r h
      cases ds with
      | nil => exact h
      | cons d ds2 =>
        rw [addDepsF_succ_cons] at h ⊢
        rcases Option.bind_eq_some.mp h with ⟨mid, h1, h2⟩
        rw [ihA _ _ _ h1]
        simpa using ihD _ _ _ h2

theorem addF_mono_le (env : Env) {n m : Nat} (h : n ≤ m) :
    ∀ t ir r, addF env n t ir = some r → addF env m t ir = some r := by
  obtain ⟨k, rfl⟩ := Nat.exists_eq_add_of_le h
  clear h
  induction k with
  | zero => exact fun t ir r hh => hh
  | succ k2 ih => exact fun t ir r hh => (fuel_mono env (n + k2)).1 _ _ _ (ih t ir r hh)

theorem addToIrF_mono_le (env : Env) {n m : Nat} (h : n ≤ m) :
    ∀ t ir r, addToIrF env n t ir = some r → addToIrF env m t ir = some r := by
  obtain ⟨k, rfl⟩ := Nat.exists_eq_add_of_le h
  clear h
  induction k with
  | zero => exact fun t ir r hh => hh
  | succ k2 ih => exact fun t ir r hh => (fuel_mono env (n + k2)).2.1 _ _ _ (ih t ir r hh)

theorem addDepsF_mono_le (env : Env) {n m : Nat} (h : n ≤ m) :
    ∀ ds ir r, addDepsF env n ds ir = some r → addDepsF env m ds ir = some r := by
  obtain ⟨k, rfl⟩ := Nat.exists_eq_add_of_le h
  clear h
  induction k with
  | zero => exact fun ds ir r hh => hh
  | succ k2 ih => exact fun ds ir r hh => (fuel_mono env (n + k2)).2.2 _ _ _ (ih ds ir r hh)

theorem typeIds_mono (env : Env) :
    ∀ n, (∀ t ir r, addF env n t ir = some r → ir.type_ids ⊆ r.type_ids) ∧
      (∀ t ir r, addToIrF env n t ir = some r → ir.type_ids ⊆ r.type_ids) ∧
      (∀ ds ir r, addDepsF env n ds ir = some r → ir.type_ids ⊆ r.type_ids) := by
  intro n
  induction n with
  | zero =>
    exact ⟨fun t ir r h => by simp [addF] at h, fun t ir r h => by simp [addToIrF] at h,
      fun ds ir r h => by simp [addDepsF] at h⟩
  | succ m ih =>
    obtain ⟨ihA, ihT, ihD⟩ := ih
    refine ⟨?_, ?_, ?_⟩
    · intro t ir r h
      rw [addF_succ] at h
      by_cases hs : hasTypeId ir t = true
      · have : ir = r := by simpa [hs] using h
        subst this
        exact List.Subset.refl _
      · have hs2 : hasTypeId ir t = false := by
          cases hb : hasTypeId ir t
          · rfl
          · exact absurd hb hs
        simp only [hs2, Bool.false_eq_true, if_false] at h
        exact (addTypeId_subset ir t).trans (ihT _ _ _ h)
    · intro t ir r h
      cases t with
      | boolT =>
        obtain rfl := Option.some.inj h
        exact List.Subset.refl _
      | i8T =>
        obtain rfl := Option.some.inj h
        exact List.Subset.refl _
      | i16T =>
        obtain rfl := Option.some.inj h
        exact List.Subset.refl _
      | i32T =>
        obtain rfl := Option.some.inj h
        exact List.Subset.refl _
      | i64T =>
        obtain rfl := Option.some.inj h
        exact List.Subset.refl _
      | f32T =>
        obtain rfl := Option.some.inj h
        exact List.Subset.refl _
      | f64T =>
        obtain rfl := Option.some.inj h
        exact List.Subset.refl _
      | strT =>
        obtain rfl := Option.some.inj h
        exact List.Subset.refl _
      | vecT e =>
        rw [addToIrF_succ_vec] at h
        exact ihT _ _ _ h
      | optT e =>
        rw [addToIrF_succ_opt] at h
        exact ihT _ _ _ h
      | boxT e =>
        rw [addToIrF_succ_box] at h
        exact ihT _ _ _ h
      | mapT a b =>
        rw [addToIrF_succ_map] at h
        rcases Option.bind_eq_some.mp h with ⟨mid, h1, h2⟩
        exact (ihT _ _ _ h1).trans (ihT _ _ _ h2)
      | userT i =>
        rw [addToIrF_succ_user] at h
        rcases Option.map_eq_some'.mp h with ⟨mid, h1, h2⟩
        subst h2
        rw [pushEntity_type_ids]
        exact ihD _ _ _ h1
    · intro ds ir r h
      cases ds with
      | nil =>
        obtain rfl := Option.some.inj h
        exact List.Subset.refl _
      | cons d ds2 =>
        rw [addDepsF_succ_cons] at h
        rcases Option.bind_eq_some.mp h with ⟨mid, h1, h2⟩
        exact (ihA _ _ _ h1).trans (ihD _ _ _ h2)

theorem unseen_mono (env : Env) (ir ir2 : IR) (h : ir.type_ids ⊆ ir2.type_ids) :
    unseenCount env ir2 ≤ unseenCount env ir := by
  apply Finset.card_le_card
  intro t ht
  simp only [Finset.mem_filter] at ht ⊢
  exact ⟨ht.1, fun hm => ht.2 (h hm)⟩

theorem unseen_insert_lt (env : Env) (ir : IR) (d : Ty) (hdU : d ∈ depsU env)
    (hd : d ∉ ir.type_ids) :
    unseenCount env (addTypeId ir d) < unseenCount env ir := by
  apply Finset.card_lt_card
  refine (Finset.ssubset_iff_of_subset ?_).mpr ⟨d, ?_, ?_⟩
  · intro t ht
    simp only [Finset.mem_filter] at ht ⊢
    exact ⟨ht.1, fun hm => ht.2 (addTypeId_subset ir d hm)⟩
  · simp only [Finset.mem_filter]
    exact ⟨List.mem_toFinset.mpr hdU, hd⟩
  · simp only [Finset.mem_filter, not_and, not_not]
    exact fun _ => mem_addTypeId ir d

theorem envDef_deps_subset (env : Env) (i : Nat) :
    ∀ d ∈ (envDef env i).deps, d ∈ depsU env := by
  intro d hd
  rcases hv : env.get? i with - | u
  · have he : envDef env i = ⟨.structE, []⟩ := by
      rw [envDef, List.getD_eq_getElem?_getD, ← List.get?_eq_getElem?, hv]
      rfl
    rw [he] at hd
    simp at hd
  · have hmem : u ∈ env := List.get?_mem hv
    have he : envDef env i = u := by
      rw [envDef, List.getD_eq_getElem?_getD, ← List.get?_eq_getElem?, hv]
      rfl
    rw [he] at hd
    exact List.mem_flatten.mpr ⟨u.deps, List.mem_map_of_mem _ hmem, hd⟩

theorem collector_total (env : Env) :
    ∀ k ir, unseenCount env ir ≤ k →
      ((∀ ds, (∀ d ∈ ds, d ∈ depsU env) → ∃ n r, addDepsF env n ds ir = some r) ∧
       (∀ t, ∃ n r, addToIrF env n t ir = some r)) := by
  intro k
  induction k using Nat.strong_induction_on with
  | _ k IH =>
  have depsPart : ∀ ds, (∀ d ∈ ds, d ∈ depsU env) → ∀ ir, unseenCount env ir ≤ k →
      ∃ n r, addDepsF env n ds ir = some r := by
    intro ds
    induction ds with
    | nil => exact fun _ ir _ => ⟨1, ir, rfl⟩
    | cons d ds2 ihds =>
      intro hds ir hir
      have hds2 : ∀ x ∈ ds2, x ∈ depsU env := fun x hx => hds x (List.mem_cons_of_mem _ hx)
      by_cases hd : d ∈ ir.type_ids
      · obtain ⟨n2, r2, h2⟩ := ihds hds2 ir hir
        refine ⟨n2 + 2, r2, ?_⟩
        have ha : addF env (n2 + 1) d ir = some ir := by simp [addF, hasTypeId, hd]
        have hcont : addDepsF env (n2 + 1) ds2 ir = some r2 :=
          addDepsF_mono_le env (Nat.le_succ n2) ds2 ir r2 h2
        simp [addDepsF, ha, hcont]
      · have hdU : d ∈ depsU env := hds d (List.mem_cons_self _ _)
        have hlt : unseenCount env (addTypeId ir d) < unseenCount env ir :=
          unseen_insert_lt env ir d hdU hd
        have hklt : unseenCount env (addTypeId ir d) < k := lt_of_lt_of_le hlt hir
        obtain ⟨-, tyP⟩ := IH _ hklt (addTypeId ir d) le_rfl
        obtain ⟨n1, r1, h1⟩ := tyP d
        have hsub : (addTypeId ir d).type_ids ⊆ r1.type_ids :=
          (typeIds_mono env n1).2.1 d _ r1 h1
        have hr1 : unseenCount env r1 ≤ unseenCount env (addTypeId ir d) :=
          unseen_mono env _ r1 hsub
        obtain ⟨n2, r2, h2⟩ := ihds hds2 r1 (by omega)
        refine ⟨max n1 n2 + 2, r2, ?_⟩
        have ha : addF env (max n1 n2 + 1) d ir = some r1 := by
          have h1b : addToIrF env (max n1 n2) d (addTypeId ir d) = some r1 :=
            addToIrF_mono_le env (le_max_left n1 n2) d _ r1 h1
          have hd2 : hasTypeId ir d = false := by
            simp [hasTypeId, hd]
          simp [addF, hd2, h1b]
        have hcont : addDepsF env (max n1 n2 + 1) ds2 r1 = some r2 :=
          addDepsF_mono_le env (Nat.le_succ_of_le (le_max_right n1 n2)) ds2 r1 r2 h2
        simp [addDepsF, ha, hcont]
  have tyPart : ∀ t ir, unseenCount env ir ≤ k → ∃ n r, addToIrF env n t ir = some r := by
    intro t
    induction t with
    | boolT => exact fun ir _ => ⟨1, ir, rfl⟩
    | i8T => exact fun ir _ => ⟨1, ir, rfl⟩
    | i16T => exact fun ir _ => ⟨1, ir, rfl⟩
    | i32T => exact fun ir _ => ⟨1, ir, rfl⟩
    | i64T => exact fun ir _ => ⟨1, ir, rfl⟩
    | f32T => exact fun ir _ => ⟨1, ir, rfl⟩
    | f64T => exact fun ir _ => ⟨1, ir, rfl⟩
    | strT => exact fun ir _ => ⟨1, ir, rfl⟩
    | vecT e ihe =>
      intro ir hir
      obtain ⟨n, r, h⟩ := ihe ir hir
      exact ⟨n + 1, r, by simpa [addToIrF] using h⟩
    | optT e ihe =>
      intro ir hir
      obtain ⟨n, r, h⟩ := ihe ir hir
      exact ⟨n + 1, r, by simpa [addToIrF] using h⟩
    | boxT e ihe =>
      intro ir hir
      obtain ⟨n, r, h⟩ := ihe ir hir
      exact ⟨n + 1, r, by simpa [addToIrF] using h⟩
    | mapT a b iha ihb =>
      intro ir hir
      obtain ⟨n1, r1, h1⟩ := iha ir hir
      have hsub := (typeIds_mono env n1).2.1 a ir r1 h1
      obtain ⟨n2, r2, h2⟩ := ihb r1 (le_trans (unseen_mono env ir r1 hsub) hir)
      refine ⟨max n1 n2 + 1, r2, ?_⟩
      have h1b := addToIrF_mono_le env (le_max_left n1 n2) a ir r1 h1
      have h2b := addToIrF_mono_le env (le_max_right n1 n2) b r1 r2 h2
      simp [addToIrF, h1b, h2b]
    | userT i =>
      intro ir hir
      obtain ⟨n, r, h⟩ := depsPart (envDef env i).deps (envDef_deps_subset env i) ir hir
      exact ⟨n + 1, pushEntity env i r, by simp [addToIrF, h]⟩
  exact fun ir hir => ⟨fun ds hds => depsPart ds hds ir hir, fun t => tyPart t ir hir⟩

/-- Claim C4: `add` short-circuits when the type id is already
registered; otherwise it inserts the id before running the type's
`add_to_ir` body, so the body always runs with its own id marked; and
for every program (any dependency graph, cyclic ones included) and any
starting state, `add` terminates: some finite fuel returns a result. -/
theorem c4_mark_then_recurse (env : Env) (t : Ty) (ir : IR) :
    (∀ fuel, hasTypeId ir t = true → addF env (fuel + 1) t ir = some ir) ∧
    (∀ fuel, hasTypeId ir t = false →
      addF env (fuel + 1) t ir = addToIrF env fuel t (addTypeId ir t) ∧
      hasTypeId (addTypeId ir t) t = true) ∧
    (∃ n r, addF env n t ir = some r) := by
  refine ⟨fun fuel h => by simp [addF, h], fun fuel h => ⟨by simp [addF, h], ?_⟩, ?_⟩
  · simp [hasTypeId, mem_addTypeId]
  · by_cases hs : hasTypeId ir t = true
    · exact ⟨1, ir, by simp [addF, hs]⟩
    · have hs2 : hasTypeId ir t = false := by
        cases hb : hasTypeId ir t
        · rfl
        · exact absurd hb hs
      obtain ⟨-, tyP⟩ :=
        collector_total env (unseenCount env (addTypeId ir t)) (addTypeId ir t) le_rfl
      obtain ⟨n, r, h⟩ := tyP t
      exact ⟨n + 1, r, by simp [addF, hs2, h]⟩

/-- Witness for `c4_mark_then_recurse` on the cyclic program: a second
`add` of the already-registered id returns the IR unchanged; a first
`add` of a fresh id reduces to the body run on the marked state; and
registration terminates. -/
theorem c4_mark_then_recurse_witness :
    (hasTypeId irCyclic (.userT 0) = true ∧
      addF envCyclic 1 (.userT 0) irCyclic = some irCyclic) ∧
    (hasTypeId IR.empty (.userT 0) = false ∧
      addF envCyclic 3 (.userT 0) IR.empty =
        addToIrF envCyclic 2 (.userT 0) (addTypeId IR.empty (.userT 0)) ∧
      hasTypeId (addTypeId IR.empty (.userT 0)) (.userT 0) = true) ∧
    (∃ n r, addF envCyclic n (.userT 0) IR.empty = some r) :=
  ⟨⟨by decide, (c4_mark_then_recurse envCyclic (.userT 0) irCyclic).1 0 (by decide)⟩,
   ⟨by decide, (c4_mark_then_recurse envCyclic (.userT 0) IR.empty).2.1 2 (by decide)⟩,
   (c4_mark_then_recurse envCyclic (.userT 0) IR.empty).2.2⟩

/-- Claim C3: evaluation at the failing input. Registering the single
root `userT 0` of `envCyclic` — a data enum with a variant holding its
own boxed type, like the repository test's `Nested(Box<TestEnum<T>>)`
variant — pushes the entity twice: its `add_to_ir` body runs again when
reached through `Box<T>::add_to_ir`, which forwards to `T::add_to_ir`
directly without the `type_ids` check, so the resulting IR holds two
data-enum entries for one identity. -/
theorem c3_duplicate_entities (n : Nat) :
    addF envCyclic (12 + n) (.userT 0) IR.empty = some irCyclic ∧
    irCyclic.data_enums = [0, 0] := by
  refine ⟨?_, rfl⟩
  induction n with
  | zero => decide
  | succ m ihm => exact (fuel_mono envCyclic (12 + m)).1 _ _ _ ihm

end Rdc
